import Mathlib

/-!
Verification development for the tpo-rag document manager.

The repository ships the React frontend (services for auth, search,
documents and ingestion, and the pages/components consuming them); the
FastAPI backend (chunker, hybrid retriever, ingestion lifecycle manager)
is not part of the source tree.  Frontend functions are embedded directly
from the JavaScript source; backend components are modelled from the
specification and are marked `Modelled from the spec:` in their doc
comments.

JavaScript strings are embedded as Lean `String` (a wrapper around
`List Char`); JSON object field layout is embedded as association lists of
field name to value.
-/

namespace TpoRag

/-! ## Auth service (src/frontend/src/services/auth.js) -/

/-- Browser `localStorage`, embedded as an association list of key/value
pairs (`setItem` appends or replaces, `removeItem` drops every entry with
the key). -/
abbrev Storage := List (String × String)

/-- The `localStorage.removeItem(k)` operation. -/
def removeItem (st : Storage) (k : String) : Storage :=
  st.filter (fun e => !(e.1 == k))

/-- The `localStorage.getItem(k)` operation (`none` embeds JS `null`). -/
def getItem (st : Storage) (k : String) : Option String :=
  (st.find? (fun e => e.1 == k)).map (fun e => e.2)

/-- Response body of the auth endpoints as read by the service layer. -/
structure ApiRespData where
  success : Bool
  message : Option String
deriving DecidableEq

/-- An axios error: `responseData` embeds `error.response && error.response.data`
(absent when the request failed without an HTTP response), `message` embeds
`error.message`. -/
structure ApiError where
  responseData : Option ApiRespData
  message : String
deriving DecidableEq

/-- The `logout` function of the auth service.  The outcome of the POST to
`/api/auth/logout` is passed in as `Except` (`ok` = the promise resolved,
`error` = it threw).  In both branches the source removes
`auth_token` and `auth_user` from localStorage before building the return
value. -/
def logout (st : Storage) (outcome : Except ApiError ApiRespData) :
    Storage × ApiRespData :=
  match outcome with
  | Except.ok data =>
      (removeItem (removeItem st "auth_token") "auth_user", data)
  | Except.error e =>
      (removeItem (removeItem st "auth_token") "auth_user",
       match e.responseData with
       | some d => d
       | none =>
           ⟨false, some (if e.message = "" then "Logout failed" else e.message)⟩)

/-! ## Search service (src/frontend/src/services/search.js, ResultCard.jsx) -/

/-- JSON values, as far as the embedded request/response bodies need. -/
inductive JsonVal where
  | str (s : String)
  | num (n : Int)
  | obj (fields : List (String × JsonVal))
  | null

/-- The request body posted by `searchDocuments(query, options)` to
`/api/search`: `{ query, max_results: maxResults, filters }`. -/
def searchRequestBody (query : String) (maxResults : Int)
    (filters : List (String × JsonVal)) : List (String × JsonVal) :=
  [("query", JsonVal.str query),
   ("max_results", JsonVal.num maxResults),
   ("filters", JsonVal.obj filters)]

/-- The fields `ResultCard` destructures from one search result:
`const { text, filename, page, score, rerank_score, metadata } = result`. -/
def resultCardReadFields : List String :=
  ["text", "filename", "page", "score", "rerank_score", "metadata"]

/-- The request field names the specification claims the caller sends. -/
def specSearchRequestFields : List String := ["query", "maxResults"]

/-- The response field names the specification claims the caller reads. -/
def specSearchResultFields : List String :=
  ["filename", "page", "text", "score", "rerankScore"]

/-- The score `ResultCard` displays:
`rerank_score !== undefined && rerank_score !== null ? rerank_score : score`. -/
def displayScore (rerank : Option ℚ) (score : Option ℚ) : Option ℚ :=
  match rerank with
  | some r => some r
  | none => score

/-! ## Hybrid retriever (modelled from the spec, §4.4) -/

/-- Modelled from the spec: one raw candidate returned by the vector store
or the keyword index — `Search(..., k) -> [(id, score)]` together with the
chunk text used later for reranking. -/
structure RawHit where
  id : String
  text : String
  score : ℚ
deriving DecidableEq

/-- Modelled from the spec: a transient SearchCandidate — chunk identity,
raw text, the semantic and/or keyword source scores, and the final score
filled in by the rerank/fallback step. -/
structure Candidate where
  id : String
  text : String
  semScore : Option ℚ
  kwScore : Option ℚ
  finalScore : Option ℚ
deriving DecidableEq

/-- A semantic hit entering the merge. -/
def semCandidate (h : RawHit) : Candidate :=
  ⟨h.id, h.text, some h.score, none, none⟩

/-- Modelled from the spec: fold one keyword hit into the merged
collection — if the chunk identity is already present, attach the keyword
score to the existing entry; otherwise append a keyword-only entry. -/
def addKeywordHit (acc : List Candidate) (h : RawHit) : List Candidate :=
  if acc.any (fun c => c.id == h.id) then
    acc.map (fun c => if c.id == h.id then { c with kwScore := some h.score } else c)
  else acc ++ [⟨h.id, h.text, none, some h.score, none⟩]

/-- Modelled from the spec: merge the semantic and keyword candidate sets
into one collection keyed by chunk identity (step 3 of `Search`). -/
def mergeCandidates (sem kw : List RawHit) : List Candidate :=
  kw.foldl addKeywordHit (sem.map semCandidate)

/-- The identity keys of a raw hit list. -/
def hitIds (l : List RawHit) : List String := l.map (fun h => h.id)

/-- The identity keys of a candidate list. -/
def candIds (l : List Candidate) : List String := l.map (fun c => c.id)

/-- First-of-two option choice (JS `a ?? b` on the score fields). -/
def orElseOpt (a b : Option ℚ) : Option ℚ :=
  match a with
  | some x => some x
  | none => b

/-- Modelled from the spec: the rerank step of `Search` (step 4).
`rerankScores = some l` embeds a successful reranker call (one score per
surviving candidate, same order); `none` embeds "reranking is disabled or
the collaborator errors", in which case every candidate keeps its semantic
score when present, else its keyword score — no candidate is dropped. -/
def applyRerank (rerankScores : Option (List ℚ)) (cands : List Candidate) :
    List Candidate :=
  match rerankScores with
  | some scores =>
      List.zipWith (fun c sc => { c with finalScore := some sc }) cands scores
  | none =>
      cands.map (fun c => { c with finalScore := orElseOpt c.semScore c.kwScore })

/-! ## Ingestion pipeline: chunker and index writer (modelled from the spec, §4.1, §4.3) -/

/-- Modelled from the spec: target chunk length, ≈800 characters. -/
def targetChunkLen : Nat := 800

/-- Modelled from the spec: chunk overlap, ≈100 characters. -/
def overlapChunkLen : Nat := 100

/-- Split page text at blank-line boundaries (helper of `splitParagraphs`). -/
def splitParasAux : List Char → List Char → List (List Char)
  | [], acc => [acc]
  | '\n' :: '\n' :: rest, acc => acc :: splitParasAux rest []
  | c :: rest, acc => splitParasAux rest (acc ++ [c])

/-- Modelled from the spec: split page text into paragraphs on blank-line
boundaries (empty pieces produced by consecutive boundaries are not
paragraphs and are dropped). -/
def splitParagraphs (l : List Char) : List (List Char) :=
  (splitParasAux l []).filter (fun p => !p.isEmpty)

/-- Append a paragraph to the chunk buffer, restoring the blank-line
marker between paragraphs of the same chunk. -/
def appendPara (buf p : List Char) : List Char :=
  if buf.isEmpty then p else buf ++ '\n' :: '\n' :: p

/-- The trailing ≈100 characters of an emitted chunk, used to seed the next
buffer. -/
def overlapTail (l : List Char) : List Char :=
  l.drop (l.length - overlapChunkLen)

/-- Modelled from the spec: accumulate paragraphs into a chunk buffer until
appending the next paragraph would exceed the target length; emit the
buffer, seed the next buffer with the emitted chunk's trailing overlap, and
continue.  A single over-long paragraph is emitted as its own chunk. -/
def chunkPageAux : List (List Char) → List Char → List (List Char)
  | [], buf => if buf.isEmpty then [] else [buf]
  | p :: rest, buf =>
    if buf.isEmpty then chunkPageAux rest p
    else if targetChunkLen < (appendPara buf p).length then
      buf :: chunkPageAux rest (appendPara (overlapTail buf) p)
    else chunkPageAux rest (appendPara buf p)

/-- A page of extracted document text. -/
structure Page where
  pageNumber : Nat
  text : String

/-- A document as the chunker sees it: filename plus extracted pages. -/
structure Document where
  filename : String
  pages : List Page

/-- Modelled from the spec: one chunk with its structural metadata. -/
structure Chunk where
  filename : String
  page : Nat
  index : Nat
  text : String
deriving DecidableEq

/-- Modelled from the spec: the identity key `{filename}_{page}_{index}`. -/
def chunkId (filename : String) (page index : Nat) : String :=
  filename ++ "_" ++ toString page ++ "_" ++ toString index

/-- The chunk texts of one page. -/
def pageChunks (pg : Page) : List (List Char) :=
  chunkPageAux (splitParagraphs pg.text.data) []

/-- Number the chunk texts of a page, continuing the running per-document
chunk index. -/
def chunksFrom (f : String) (pg : Nat) : Nat → List (List Char) → List Chunk
  | _, [] => []
  | i0, t :: ts => ⟨f, pg, i0, ⟨t⟩⟩ :: chunksFrom f pg (i0 + 1) ts

/-- Chunk the pages of a document in order, threading the running chunk
index. -/
def chunkDocumentAux (f : String) : List Page → Nat → List Chunk
  | [], _ => []
  | pg :: rest, i0 =>
    let cs := chunksFrom f pg.pageNumber i0 (pageChunks pg)
    cs ++ chunkDocumentAux f rest (i0 + cs.length)

/-- Modelled from the spec: the ordered chunk sequence of a document
(stateless between documents, deterministic). -/
def chunkDocument (d : Document) : List Chunk :=
  chunkDocumentAux d.filename d.pages 0

/-- Modelled from the spec: the persisted form of a chunk, keyed by the
chunk identity. -/
structure IndexRecord where
  key : String
  chunk : Chunk
deriving DecidableEq

/-- The index store (vector store and keyword store write the same keys). -/
abbrev Store := List IndexRecord

/-- Modelled from the spec: upsert — a record whose key is already present
overwrites the existing record; otherwise it is appended. -/
def upsertRecord (s : Store) (r : IndexRecord) : Store :=
  if s.any (fun e => e.key == r.key) then
    s.map (fun e => if e.key == r.key then r else e)
  else s ++ [r]

/-- Write a batch of records through `upsertRecord`. -/
def writeAll (s : Store) (rs : List IndexRecord) : Store :=
  rs.foldl upsertRecord s

/-- The index records produced for a document. -/
def documentRecords (d : Document) : List IndexRecord :=
  (chunkDocument d).map (fun c => ⟨chunkId c.filename c.page c.index, c⟩)

/-- Modelled from the spec: (re)ingest one document — chunk it and upsert
every record into the store. -/
def ingestDocument (s : Store) (d : Document) : Store :=
  writeAll s (documentRecords d)

/-- The keys present in the store, in store order. -/
def storeKeys (s : Store) : List String := s.map (fun r => r.key)

/-! ## Ingestion lifecycle manager (modelled from the spec, §4.5) -/

/-- Modelled from the spec: the lifecycle states. -/
inductive IngState where
  | idle
  | running
  | completed
  | errorState
  | stopped
deriving DecidableEq

/-- Modelled from the spec: one IngestionRun. -/
structure IngestionRun where
  runId : Nat
  startTime : Nat
  processed : Nat
  failed : Nat
  total : Nat
  lastError : Option String
deriving DecidableEq

/-- Modelled from the spec: the shared lifecycle object — current state,
the process-wide FileLock, and the current run (if any). -/
structure Manager where
  state : IngState
  fileLock : Bool
  run : Option IngestionRun
deriving DecidableEq

/-- Error kind of `Start()` while a run is in progress. -/
inductive StartError where
  | alreadyRunning
deriving DecidableEq

/-- Error kind of `Stop()` when no run is in progress. -/
inductive StopError where
  | notRunning
deriving DecidableEq

/-- Error kind of a file mutation attempted while the FileLock is held. -/
inductive MutationError where
  | locked
deriving DecidableEq

/-- The HTTP status the boundary maps each mutation error to (HTTP 423
Locked). -/
def httpStatus : MutationError → Nat
  | MutationError.locked => 423

/-- Modelled from the spec: `Start()` — fails with AlreadyRunningError if
the state is `running`; otherwise registers a fresh IngestionRun, sets the
FileLock, and moves to `running`.  The pipeline itself runs as a separate
unit of work (the pipeline-completion events below); `Start` returns as
soon as the run is registered. -/
def start (m : Manager) (newRunId now total : Nat) : Except StartError Manager :=
  if m.state = IngState.running then Except.error StartError.alreadyRunning
  else
    Except.ok
      { state := IngState.running, fileLock := true,
        run := some ⟨newRunId, now, 0, 0, total, none⟩ }

/-- Modelled from the spec: `Stop()` — fails with NotRunningError unless
the state is `running`; otherwise moves to `stopped` and releases the
FileLock. -/
def stop (m : Manager) : Except StopError Manager :=
  if m.state = IngState.running then
    Except.ok { m with state := IngState.stopped, fileLock := false }
  else Except.error StopError.notRunning

/-- Modelled from the spec: the pipeline-completion event — a running run
moves to `completed` and the FileLock is released.  Not applicable in any
other state. -/
def completeRun (m : Manager) : Option Manager :=
  if m.state = IngState.running then
    some { m with state := IngState.completed, fileLock := false }
  else none

/-- Modelled from the spec: the fatal-pipeline-failure event — a running
run moves to `error`, the last error is recorded, and the FileLock is
released. -/
def failRun (m : Manager) (err : String) : Option Manager :=
  if m.state = IngState.running then
    some
      { m with
        state := IngState.errorState
        fileLock := false
        run := m.run.map (fun r => { r with lastError := some err }) }
  else none

/-- Modelled from the spec: a file-mutation request (upload, delete,
folder mutation) observes the FileLock and refuses with LockedError when it
is held; it does not block or queue. -/
def fileMutation (m : Manager) : Except MutationError Unit :=
  if m.fileLock then Except.error MutationError.locked else Except.ok ()

/-- The FileLock invariant: the lock is held exactly while the state is
`running`. -/
def lockInv (m : Manager) : Prop :=
  m.fileLock = true ↔ m.state = IngState.running

/-- Terminal lifecycle states. -/
def isTerminal (s : IngState) : Prop :=
  s = IngState.completed ∨ s = IngState.errorState ∨ s = IngState.stopped

/-- The transition shape the specification claims: `idle` or a terminal
state moves to `running` (a start request), and `running` moves to a
terminal state. -/
def allowedTransition (s sNext : IngState) : Prop :=
  ((s = IngState.idle ∨ isTerminal s) ∧ sNext = IngState.running) ∨
    (s = IngState.running ∧ isTerminal sNext)

/-- The toast shown by `confirmDelete` in DocumentsPage for an HTTP error
status (423 and 401 are special-cased). -/
def deleteErrorToast (statusCode : Nat) (serverMessage : Option String) : String :=
  if statusCode = 423 then "Cannot delete files while ingestion is running"
  else if statusCode = 401 then "Please login again"
  else
    match serverMessage with
    | some msg => msg
    | none => "Failed to delete document"

/-- The toast shown by `handleFileChange` in DocumentsPage for an HTTP
error status. -/
def uploadErrorToast (statusCode : Nat) (serverMessage : Option String) : String :=
  if statusCode = 423 then "Cannot upload files while ingestion is running"
  else if statusCode = 401 then "Please login again"
  else
    match serverMessage with
    | some msg => msg
    | none => "Failed to upload file"

/-- The state names the status endpoint reports. -/
def stateName : IngState → String
  | IngState.idle => "idle"
  | IngState.running => "running"
  | IngState.completed => "completed"
  | IngState.errorState => "error"
  | IngState.stopped => "stopped"

/-- Modelled from the spec: the status snapshot, with the field names the
frontend status consumer reads. -/
structure StatusSnapshot where
  statusField : IngState
  processId : Option Nat
  filesProcessed : Option Nat
  totalFiles : Option Nat
  startTimeField : Option Nat
  errorField : Option String
deriving DecidableEq

/-- Build the snapshot of the current run. -/
def mkSnapshot (m : Manager) : StatusSnapshot :=
  ⟨m.state, m.run.map (fun r => r.runId), m.run.map (fun r => r.processed),
   m.run.map (fun r => r.total), m.run.map (fun r => r.startTime),
   m.run.bind (fun r => r.lastError)⟩

/-- Modelled from the spec: `Status()` — a non-mutating, non-blocking read
returning the unchanged manager together with a snapshot. -/
def statusCall (m : Manager) : Manager × StatusSnapshot :=
  (m, mkSnapshot m)

/-- Render the snapshot as the JSON body of `/api/ingestion/status`,
fixing the wire field names. -/
def renderSnapshot (s : StatusSnapshot) : List (String × JsonVal) :=
  [("status", JsonVal.str (stateName s.statusField)),
   ("process_id", match s.processId with | some n => JsonVal.num n | none => JsonVal.null),
   ("files_processed", match s.filesProcessed with | some n => JsonVal.num n | none => JsonVal.null),
   ("total_files", match s.totalFiles with | some n => JsonVal.num n | none => JsonVal.null),
   ("start_time", match s.startTimeField with | some n => JsonVal.num n | none => JsonVal.null),
   ("error", match s.errorField with | some e => JsonVal.str e | none => JsonVal.null)]

/-- The status-object fields the `IngestionPanel` component reads:
`status.status`, `status.process_id`, `status.files_processed`,
`status.total_files`, `status.start_time`, `status.error`. -/
def ingestionPanelReadFields : List String :=
  ["status", "process_id", "files_processed", "total_files", "start_time", "error"]

/-- The status field names the specification claims the response carries. -/
def specStatusFields : List String :=
  ["state", "processed", "failed", "total", "startTime", "lastError"]

/-- Fifteen distinct semantic hits `id0 … id14` (used by concrete
instantiations of the merge example). -/
def semHitsExample : List RawHit :=
  (List.range 15).map (fun n => ⟨"id" ++ toString n, "text", 1⟩)

/-- Eighteen distinct keyword hits `id7 … id24`, eight of which overlap the
semantic hits (used by concrete instantiations of the merge example). -/
def kwHitsExample : List RawHit :=
  (List.range 18).map (fun n => ⟨"id" ++ toString (n + 7), "text", 1⟩)

/-- A concrete two-paragraph document (used by concrete instantiations). -/
def docExample : Document :=
  ⟨"doc", [⟨1, "alpha\n\nbeta"⟩]⟩

/-- A concrete manager with a run in progress (used by concrete
instantiations). -/
def runningManager : Manager :=
  { state := IngState.running, fileLock := true, run := some ⟨1, 0, 0, 0, 3, none⟩ }

/-- A concrete idle manager (used by concrete instantiations). -/
def idleManager : Manager :=
  { state := IngState.idle, fileLock := false, run := none }

/-! ## Helper lemmas -/

theorem getItem_removeItem_self (st : Storage) (k : String) :
    getItem (removeItem st k) k = none := by
  simp only [getItem, removeItem, Option.map_eq_none', List.find?_eq_none]
  intro x hx
  have h := (List.mem_filter.mp hx).2
  simpa using h

theorem getItem_removeItem_none (st : Storage) (k k2 : String)
    (h : getItem st k = none) : getItem (removeItem st k2) k = none := by
  simp only [getItem, Option.map_eq_none', List.find?_eq_none] at h ⊢
  intro x hx
  exact h x (List.mem_filter.mp hx).1

/-- C10: after every call to `logout()`, the stored credentials
`auth_token` and `auth_user` are removed from localStorage, both when the
logout API request succeeds and when it throws an error. -/
theorem c10_logout_clears_credentials (st : Storage)
    (outcome : Except ApiError ApiRespData) :
    getItem (logout st outcome).1 "auth_token" = none ∧
      getItem (logout st outcome).1 "auth_user" = none := by
  cases outcome with
  | ok data =>
    refine ⟨?_, ?_⟩
    · exact getItem_removeItem_none _ _ _ (getItem_removeItem_self st "auth_token")
    · exact getItem_removeItem_self _ _
  | error e =>
    refine ⟨?_, ?_⟩
    · exact getItem_removeItem_none _ _ _ (getItem_removeItem_self st "auth_token")
    · exact getItem_removeItem_self _ _

/-- C6: the claim says the search caller sends request fields
`{query, maxResults}` and reads result fields
`{filename, page, text, score, rerankScore?}`.  The source sends
`max_results` (snake case, plus a `filters` field) and reads
`rerank_score`: neither claimed name `maxResults` nor `rerankScore`
occurs. -/
theorem c6_counterexample :
    ¬ (("maxResults" ∈ (searchRequestBody "safety procedures" 10 []).map Prod.fst) ∧
       ("rerankScore" ∈ resultCardReadFields)) := by
  decide

/-- C6 (amended): the search caller posts a request of shape
`{query: string, max_results: int, filters: object}` and the result card
reads records of shape
`{text, filename, page, score, rerank_score?, metadata?}`, displaying
`rerank_score` when present and `score` otherwise. -/
theorem c6_search_boundary_fields (q : String) (n : Int)
    (f : List (String × JsonVal)) :
    (searchRequestBody q n f).map Prod.fst = ["query", "max_results", "filters"] ∧
    resultCardReadFields = ["text", "filename", "page", "score", "rerank_score", "metadata"] ∧
    (∀ r s, displayScore (some r) s = some r) ∧
    (∀ s, displayScore none s = s) := by
  refine ⟨rfl, rfl, ?_, ?_⟩
  · intro r s
    rfl
  · intro s
    rfl

/-- C7: the claim says the status response carries the fields
`{state, processed, failed, total, startTime, lastError?}`, matching the
names the consuming boundary client reads.  The consuming client
(`IngestionPanel`) reads `status`, `process_id`, `files_processed`,
`total_files`, `start_time` and `error` instead: none of the claimed
names is read. -/
theorem c7_counterexample :
    ("state" ∈ specStatusFields) ∧
      ¬ ("state" ∈ ingestionPanelReadFields) ∧
      ¬ ("startTime" ∈ ingestionPanelReadFields) ∧
      ¬ ("lastError" ∈ ingestionPanelReadFields) ∧
      ¬ ("processed" ∈ ingestionPanelReadFields) := by
  decide

/-- C7 (amended): `Status()` is a pure, non-mutating read returning a
snapshot of the current IngestionRun, and the rendered status response
carries exactly the fields the consuming boundary client reads:
`{status, process_id, files_processed, total_files, start_time,
error}`. -/
theorem c7_status_snapshot_fields (m : Manager) :
    (statusCall m).1 = m ∧
    (renderSnapshot (statusCall m).2).map Prod.fst = ingestionPanelReadFields ∧
    (statusCall m).2.statusField = m.state ∧
    (statusCall m).2.processId = m.run.map (fun r => r.runId) ∧
    (statusCall m).2.filesProcessed = m.run.map (fun r => r.processed) ∧
    (statusCall m).2.totalFiles = m.run.map (fun r => r.total) ∧
    (statusCall m).2.startTimeField = m.run.map (fun r => r.startTime) ∧
    (statusCall m).2.errorField = m.run.bind (fun r => r.lastError) :=
  ⟨rfl, rfl, rfl, rfl, rfl, rfl, rfl, rfl⟩

theorem start_ok_state (m m2 : Manager) (i n t : Nat)
    (h : start m i n t = Except.ok m2) :
    m.state ≠ IngState.running ∧ m2.state = IngState.running := by
  by_cases hr : m.state = IngState.running
  · simp [start, hr] at h
  · simp [start, hr] at h
    exact ⟨hr, by rw [← h]⟩

theorem stop_ok_state (m m2 : Manager)
    (h : stop m = Except.ok m2) :
    m.state = IngState.running ∧ m2.state = IngState.stopped ∧ m2.fileLock = false := by
  by_cases hr : m.state = IngState.running
  · simp [stop, hr] at h
    exact ⟨hr, by rw [← h], by rw [← h]⟩
  · simp [stop, hr] at h

theorem completeRun_state (m m2 : Manager)
    (h : completeRun m = some m2) :
    m.state = IngState.running ∧ m2.state = IngState.completed ∧ m2.fileLock = false := by
  by_cases hr : m.state = IngState.running
  · simp [completeRun, hr] at h
    exact ⟨hr, by rw [← h], by rw [← h]⟩
  · simp [completeRun, hr] at h

theorem failRun_state (m m2 : Manager) (e : String)
    (h : failRun m e = some m2) :
    m.state = IngState.running ∧ m2.state = IngState.errorState ∧ m2.fileLock = false := by
  by_cases hr : m.state = IngState.running
  · simp [failRun, hr] at h
    exact ⟨hr, by rw [← h], by rw [← h]⟩
  · simp [failRun, hr] at h

/-- C1: while the ingestion run's state is `running`, every file-mutation
request observes the FileLock and is refused with LockedError — surfaced
at the boundary as HTTP 423, the status the DocumentsPage delete/upload
handlers special-case — rather than blocking or queuing; and after
`Stop()` or natural completion of the run, the same request succeeds. -/
theorem c1_file_mutation_locked_while_running (m : Manager) (hinv : lockInv m) :
    (m.state = IngState.running →
      fileMutation m = Except.error MutationError.locked) ∧
    httpStatus MutationError.locked = 423 ∧
    deleteErrorToast (httpStatus MutationError.locked) none
      = "Cannot delete files while ingestion is running" ∧
    uploadErrorToast (httpStatus MutationError.locked) none
      = "Cannot upload files while ingestion is running" ∧
    (∀ m2, stop m = Except.ok m2 → fileMutation m2 = Except.ok ()) ∧
    (∀ m2, completeRun m = some m2 → fileMutation m2 = Except.ok ()) := by
  refine ⟨?_, rfl, rfl, rfl, ?_, ?_⟩
  · intro hrun
    have hl : m.fileLock = true := hinv.mpr hrun
    simp [fileMutation, hl]
  · intro m2 hstop
    have hm2 := (stop_ok_state m m2 hstop).2.2
    simp [fileMutation, hm2]
  · intro m2 hcomp
    have hm2 := (completeRun_state m m2 hcomp).2.2
    simp [fileMutation, hm2]

/-- C1 witness: the lock invariant holds of a concrete running manager and
a file mutation against it is refused with LockedError. -/
theorem c1_witness :
    lockInv runningManager ∧
      fileMutation runningManager = Except.error MutationError.locked :=
  ⟨by unfold lockInv; decide,
   (c1_file_mutation_locked_while_running runningManager
     (by unfold lockInv; decide)).1 rfl⟩

/-- C2: `Start()` fails with AlreadyRunningError if and only if the
current state is `running`; otherwise it registers a fresh IngestionRun,
sets the FileLock, moves to `running`, and a second `Start()` without an
intervening terminal state fails with AlreadyRunningError. -/
theorem c2_start_single_flight (m : Manager) (newRunId now total : Nat) :
    (start m newRunId now total = Except.error StartError.alreadyRunning ↔
      m.state = IngState.running) ∧
    (m.state ≠ IngState.running →
      start m newRunId now total
        = Except.ok ⟨IngState.running, true, some ⟨newRunId, now, 0, 0, total, none⟩⟩) ∧
    (∀ m2, start m newRunId now total = Except.ok m2 →
      m2.state = IngState.running ∧ m2.fileLock = true ∧
        m2.run = some ⟨newRunId, now, 0, 0, total, none⟩ ∧
        ∀ id2 now2 total2,
          start m2 id2 now2 total2 = Except.error StartError.alreadyRunning) := by
  refine ⟨?_, ?_, ?_⟩
  · constructor
    · intro hE
      by_cases hr : m.state = IngState.running
      · exact hr
      · simp [start, hr] at hE
    · intro hr
      simp [start, hr]
  · intro hr
    simp [start, hr]
  · intro m2 hok
    by_cases hr : m.state = IngState.running
    · simp [start, hr] at hok
    · simp [start, hr] at hok
      refine ⟨by rw [← hok], by rw [← hok], by rw [← hok], ?_⟩
      intro id2 now2 total2
      rw [← hok]
      simp [start]

/-- C2 witness: starting from a concrete idle manager succeeds and
produces a running manager. -/
theorem c2_witness :
    idleManager.state ≠ IngState.running ∧
      start idleManager 1 0 3
        = Except.ok ⟨IngState.running, true, some ⟨1, 0, 0, 0, 3, none⟩⟩ :=
  ⟨by decide, (c2_start_single_flight idleManager 1 0 3).2.1 (by decide)⟩

/-- C3: the lifecycle state is always one of exactly
`{idle, running, completed, error, stopped}`; every transition produced by
the manager operations follows `idle → running → {completed, error,
stopped}`; and from a terminal state the only applicable operation is a
new start request (stop fails, the pipeline events do not apply, start
succeeds and moves back to `running`). -/
theorem c3_lifecycle_state_machine (m m2 : Manager) :
    (∀ s : IngState, s = IngState.idle ∨ s = IngState.running ∨
      s = IngState.completed ∨ s = IngState.errorState ∨ s = IngState.stopped) ∧
    (((∃ i n t, start m i n t = Except.ok m2) ∨ stop m = Except.ok m2 ∨
        completeRun m = some m2 ∨ (∃ e, failRun m e = some m2)) →
      allowedTransition m.state m2.state) ∧
    (isTerminal m.state →
      stop m = Except.error StopError.notRunning ∧
      completeRun m = none ∧
      (∀ e, failRun m e = none) ∧
      (∀ i n t, start m i n t
        = Except.ok ⟨IngState.running, true, some ⟨i, n, 0, 0, t, none⟩⟩)) := by
  refine ⟨?_, ?_, ?_⟩
  · intro s
    cases s <;> simp
  · intro hstep
    rcases hstep with ⟨i, n, t, hok⟩ | hok | hok | ⟨e, hok⟩
    · obtain ⟨hne, hrun⟩ := start_ok_state m m2 i n t hok
      left
      refine ⟨?_, hrun⟩
      cases hst : m.state <;> simp_all [isTerminal]
    · obtain ⟨hrun, hst, _⟩ := stop_ok_state m m2 hok
      right
      exact ⟨hrun, Or.inr (Or.inr hst)⟩
    · obtain ⟨hrun, hst, _⟩ := completeRun_state m m2 hok
      right
      exact ⟨hrun, Or.inl hst⟩
    · obtain ⟨hrun, hst, _⟩ := failRun_state m m2 e hok
      right
      exact ⟨hrun, Or.inr (Or.inl hst)⟩
  · intro hterm
    have hne : m.state ≠ IngState.running := by
      rcases hterm with h1 | h1 | h1 <;> simp [h1]
    refine ⟨?_, ?_, ?_, ?_⟩
    · simp [stop, hne]
    · simp [completeRun, hne]
    · intro e
      simp [failRun, hne]
    · intro i n t
      simp [start, hne]

/-- C3 witness: the concrete transition from the idle manager to the
running manager produced by a start request is an allowed transition. -/
theorem c3_witness :
    allowedTransition idleManager.state runningManager.state :=
  (c3_lifecycle_state_machine idleManager runningManager).2.1
    (Or.inl ⟨1, 0, 3, rfl⟩)

theorem any_key_eq_mem (s : Store) (k : String) :
    s.any (fun e => e.key == k) = true ↔ k ∈ storeKeys s := by
  simp [storeKeys, List.any_eq_true]

theorem storeKeys_upsert_update (s : Store) (r : IndexRecord)
    (hany : s.any (fun e => e.key == r.key) = true) :
    storeKeys (upsertRecord s r) = storeKeys s := by
  simp only [upsertRecord, hany, if_true, storeKeys, List.map_map]
  apply List.map_congr_left
  intro e _
  by_cases hk : e.key = r.key
  · simp [hk]
  · simp [hk]

theorem storeKeys_upsert_append (s : Store) (r : IndexRecord)
    (hany : s.any (fun e => e.key == r.key) = false) :
    storeKeys (upsertRecord s r) = storeKeys s ++ [r.key] := by
  simp [upsertRecord, hany, storeKeys]

theorem mem_storeKeys_upsert (s : Store) (r : IndexRecord) :
    r.key ∈ storeKeys (upsertRecord s r) := by
  cases hany : s.any (fun e => e.key == r.key) with
  | true =>
    rw [storeKeys_upsert_update s r hany]
    exact (any_key_eq_mem s r.key).mp hany
  | false =>
    rw [storeKeys_upsert_append s r hany]
    simp

theorem mem_storeKeys_upsert_mono (s : Store) (r : IndexRecord) (k : String)
    (h : k ∈ storeKeys s) : k ∈ storeKeys (upsertRecord s r) := by
  cases hany : s.any (fun e => e.key == r.key) with
  | true =>
    rw [storeKeys_upsert_update s r hany]
    exact h
  | false =>
    rw [storeKeys_upsert_append s r hany]
    exact List.mem_append_left _ h

theorem writeAll_keys_mono (s : Store) (rs : List IndexRecord) (k : String)
    (h : k ∈ storeKeys s) : k ∈ storeKeys (writeAll s rs) := by
  induction rs generalizing s with
  | nil => simpa [writeAll]
  | cons r rest ih =>
    simp only [writeAll, List.foldl_cons]
    exact ih (upsertRecord s r) (mem_storeKeys_upsert_mono s r k h)

theorem writeAll_key_mem (s : Store) (rs : List IndexRecord) :
    ∀ r ∈ rs, r.key ∈ storeKeys (writeAll s rs) := by
  induction rs generalizing s with
  | nil => simp
  | cons r rest ih =>
    intro r2 hr2
    rcases List.mem_cons.mp hr2 with rfl | hr2
    · simp only [writeAll, List.foldl_cons]
      exact writeAll_keys_mono (upsertRecord s r2) rest _ (mem_storeKeys_upsert s r2)
    · simp only [writeAll, List.foldl_cons]
      exact ih (upsertRecord s r) r2 hr2

theorem writeAll_keys_of_subset (s : Store) (rs : List IndexRecord)
    (h : ∀ r ∈ rs, r.key ∈ storeKeys s) :
    storeKeys (writeAll s rs) = storeKeys s := by
  induction rs generalizing s with
  | nil => simp [writeAll]
  | cons r rest ih =>
    simp only [writeAll, List.foldl_cons]
    have hk : r.key ∈ storeKeys s := h r (List.mem_cons_self r rest)
    have hupd : storeKeys (upsertRecord s r) = storeKeys s :=
      storeKeys_upsert_update s r ((any_key_eq_mem s r.key).mpr hk)
    have hrest : ∀ r2 ∈ rest, r2.key ∈ storeKeys (upsertRecord s r) := by
      intro r2 hr2
      rw [hupd]
      exact h r2 (List.mem_cons_of_mem r hr2)
    calc storeKeys (writeAll (upsertRecord s r) rest)
        = storeKeys (upsertRecord s r) := ih (upsertRecord s r) hrest
      _ = storeKeys s := hupd

/-- C4: re-ingesting an unchanged document leaves the store's key list and
record count exactly as after the first ingestion — existing records are
overwritten, never duplicated — and every chunk produced for the document
has its identity key of the form `{filename}_{page}_{index}` present in
the store after ingestion. -/
theorem c4_reingest_idempotent (d : Document) (s : Store) :
    storeKeys (ingestDocument (ingestDocument s d) d)
      = storeKeys (ingestDocument s d) ∧
    (ingestDocument (ingestDocument s d) d).length
      = (ingestDocument s d).length ∧
    (∀ c ∈ chunkDocument d,
      chunkId c.filename c.page c.index ∈ storeKeys (ingestDocument s d)) := by
  have hkeys : storeKeys (ingestDocument (ingestDocument s d) d)
      = storeKeys (ingestDocument s d) := by
    unfold ingestDocument
    exact writeAll_keys_of_subset _ _ (writeAll_key_mem s (documentRecords d))
  refine ⟨hkeys, ?_, ?_⟩
  · have hlen := congrArg List.length hkeys
    simpa [storeKeys] using hlen
  · intro c hc
    have hrec : (⟨chunkId c.filename c.page c.index, c⟩ : IndexRecord)
        ∈ documentRecords d := by
      simp only [documentRecords, List.mem_map]
      exact ⟨c, hc, rfl⟩
    have hmem := writeAll_key_mem s (documentRecords d) _ hrec
    simpa [ingestDocument] using hmem

/-- C4 witness: ingesting a concrete two-paragraph document puts the
identity key `doc_1_0` of its single chunk into the store. -/
theorem c4_witness :
    ((⟨"doc", 1, 0, "alpha\n\nbeta"⟩ : Chunk) ∈ chunkDocument docExample) ∧
      chunkId "doc" 1 0 ∈ storeKeys (ingestDocument [] docExample) :=
  ⟨by decide, by
    have hres := (c4_reingest_idempotent docExample []).2.2
      ⟨"doc", 1, 0, "alpha\n\nbeta"⟩ (by decide)
    simpa using hres⟩

theorem any_id_eq_mem (l : List Candidate) (i : String) :
    l.any (fun c => c.id == i) = true ↔ i ∈ candIds l := by
  simp [candIds, List.any_eq_true]

theorem candIds_addKeywordHit_update (acc : List Candidate) (h : RawHit)
    (hany : acc.any (fun c => c.id == h.id) = true) :
    candIds (addKeywordHit acc h) = candIds acc := by
  simp only [addKeywordHit, hany, if_true, candIds, List.map_map]
  apply List.map_congr_left
  intro c _
  by_cases hc : c.id = h.id
  · simp [hc]
  · simp [hc]

theorem candIds_addKeywordHit_append (acc : List Candidate) (h : RawHit)
    (hany : acc.any (fun c => c.id == h.id) = false) :
    candIds (addKeywordHit acc h) = candIds acc ++ [h.id] := by
  simp [addKeywordHit, hany, candIds]

theorem any_id_congr (l1 l2 : List Candidate) (i : String)
    (hids : candIds l1 = candIds l2) :
    l1.any (fun c => c.id == i) = l2.any (fun c => c.id == i) := by
  cases hb : l2.any (fun c => c.id == i) with
  | true =>
    rw [any_id_eq_mem, hids]
    exact (any_id_eq_mem l2 i).mp hb
  | false =>
    cases hb1 : l1.any (fun c => c.id == i) with
    | true =>
      exfalso
      have hmem := (any_id_eq_mem l1 i).mp hb1
      rw [hids] at hmem
      have hcontra := (any_id_eq_mem l2 i).mpr hmem
      rw [hb] at hcontra
      simp at hcontra
    | false => rfl

theorem length_filter_split {α : Type} (l : List α) (p : α → Bool) :
    (l.filter p).length + (l.filter (fun x => !(p x))).length = l.length := by
  induction l with
  | nil => simp
  | cons x rest ih =>
    cases hx : p x <;> simp [List.filter_cons, hx] <;> omega

theorem candIds_nodup_addKeywordHit (acc : List Candidate) (h : RawHit)
    (hnd : (candIds acc).Nodup) :
    (candIds (addKeywordHit acc h)).Nodup := by
  cases hany : acc.any (fun c => c.id == h.id) with
  | true =>
    rw [candIds_addKeywordHit_update acc h hany]
    exact hnd
  | false =>
    rw [candIds_addKeywordHit_append acc h hany]
    have hni : h.id ∉ candIds acc := by
      intro hmem
      have hcontra := (any_id_eq_mem acc h.id).mpr hmem
      rw [hany] at hcontra
      simp at hcontra
    refine List.Nodup.append hnd (List.nodup_singleton _) ?_
    intro x hx hx2
    simp at hx2
    rw [hx2] at hx
    exact hni hx

theorem candIds_nodup_foldl (kw : List RawHit) (acc : List Candidate)
    (hnd : (candIds acc).Nodup) :
    (candIds (kw.foldl addKeywordHit acc)).Nodup := by
  induction kw generalizing acc with
  | nil => simpa
  | cons h rest ih =>
    simp only [List.foldl_cons]
    exact ih (addKeywordHit acc h) (candIds_nodup_addKeywordHit acc h hnd)

theorem foldl_addKeywordHit_length (kw : List RawHit) (acc : List Candidate)
    (hnd : (hitIds kw).Nodup) :
    (kw.foldl addKeywordHit acc).length
      = acc.length
        + (kw.filter (fun h2 => !(acc.any (fun c => c.id == h2.id)))).length := by
  induction kw generalizing acc with
  | nil => simp
  | cons h rest ih =>
    have hnd2 := hnd
    rw [hitIds, List.map_cons, List.nodup_cons] at hnd2
    obtain ⟨hnotin, hndrest⟩ := hnd2
    cases hany : acc.any (fun c => c.id == h.id) with
    | true =>
      have hlen : (addKeywordHit acc h).length = acc.length := by
        have hc := congrArg List.length (candIds_addKeywordHit_update acc h hany)
        simpa [candIds] using hc
      have hfilter :
          rest.filter (fun h2 => !((addKeywordHit acc h).any (fun c => c.id == h2.id)))
            = rest.filter (fun h2 => !(acc.any (fun c => c.id == h2.id))) := by
        apply List.filter_congr
        intro h2 _
        rw [any_id_congr _ acc _ (candIds_addKeywordHit_update acc h hany)]
      simp only [List.foldl_cons]
      rw [ih (addKeywordHit acc h) hndrest, hlen, hfilter]
      simp [List.filter_cons, hany]
    | false =>
      have hlen : (addKeywordHit acc h).length = acc.length + 1 := by
        have hc := congrArg List.length (candIds_addKeywordHit_append acc h hany)
        simpa [candIds] using hc
      have hfilter :
          rest.filter (fun h2 => !((addKeywordHit acc h).any (fun c => c.id == h2.id)))
            = rest.filter (fun h2 => !(acc.any (fun c => c.id == h2.id))) := by
        apply List.filter_congr
        intro h2 hh2
        have hne : h2.id ≠ h.id := by
          intro heq
          apply hnotin
          rw [← heq]
          exact List.mem_map.mpr ⟨h2, hh2, rfl⟩
        cases hb : acc.any (fun c => c.id == h2.id) with
        | true =>
          have hmem := (any_id_eq_mem acc h2.id).mp hb
          have : h2.id ∈ candIds (addKeywordHit acc h) := by
            rw [candIds_addKeywordHit_append acc h hany]
            exact List.mem_append_left _ hmem
          rw [(any_id_eq_mem _ h2.id).mpr this]
        | false =>
          have hnm : h2.id ∉ candIds acc := by
            intro hmem
            rw [← any_id_eq_mem] at hmem
            rw [hb] at hmem
            exact absurd hmem (by simp)
          have : h2.id ∉ candIds (addKeywordHit acc h) := by
            rw [candIds_addKeywordHit_append acc h hany]
            intro hmem
            rcases List.mem_append.mp hmem with hm | hm
            · exact hnm hm
            · simp at hm
              exact hne hm
          cases hb2 : (addKeywordHit acc h).any (fun c => c.id == h2.id) with
          | true => exact absurd ((any_id_eq_mem _ h2.id).mp hb2) this
          | false => rfl
      simp only [List.foldl_cons]
      rw [ih (addKeywordHit acc h) hndrest, hlen, hfilter]
      simp only [List.filter_cons, hany]
      simp [Nat.add_comm, Nat.add_assoc, Nat.add_left_comm]

theorem candIds_semMap (sem : List RawHit) :
    candIds (sem.map semCandidate) = hitIds sem := by
  simp [candIds, hitIds, List.map_map, semCandidate]

theorem addKeywordHit_append_eq (acc : List Candidate) (h : RawHit)
    (hany : acc.any (fun c => c.id == h.id) = false) :
    addKeywordHit acc h = acc ++ [⟨h.id, h.text, none, some h.score, none⟩] := by
  simp [addKeywordHit, hany]

theorem addKeywordHit_update_mem (acc : List Candidate) (h : RawHit)
    (hany : acc.any (fun c => c.id == h.id) = true) (c : Candidate)
    (hc : c ∈ addKeywordHit acc h) :
    ∃ c0 ∈ acc, c0.id = c.id ∧ c.semScore = c0.semScore ∧
      (c0.id = h.id → c.kwScore = some h.score) ∧
      (c0.id ≠ h.id → c = c0) := by
  simp only [addKeywordHit, hany, if_true, List.mem_map] at hc
  obtain ⟨c0, hc0, hc0eq⟩ := hc
  by_cases hcid : c0.id = h.id
  · refine ⟨c0, hc0, ?_, ?_, ?_, ?_⟩ <;>
      rw [← hc0eq] <;> simp [hcid]
  · refine ⟨c0, hc0, ?_, ?_, ?_, ?_⟩ <;>
      rw [← hc0eq] <;> simp [hcid]

theorem addKeywordHit_semSome (acc : List Candidate) (h : RawHit) (i : String)
    (hmem : i ∈ candIds acc)
    (hsem : ∀ c ∈ acc, c.id = i → c.semScore.isSome = true) :
    i ∈ candIds (addKeywordHit acc h)
      ∧ ∀ c ∈ addKeywordHit acc h, c.id = i → c.semScore.isSome = true := by
  cases hany : acc.any (fun c => c.id == h.id) with
  | true =>
    refine ⟨by rw [candIds_addKeywordHit_update acc h hany]; exact hmem, ?_⟩
    intro c hc hci
    obtain ⟨c0, hc0, hid, hsemEq, _, _⟩ := addKeywordHit_update_mem acc h hany c hc
    rw [hsemEq]
    exact hsem c0 hc0 (by rw [hid, hci])
  | false =>
    have hmm : i ∈ candIds (addKeywordHit acc h) := by
      rw [candIds_addKeywordHit_append acc h hany]
      exact List.mem_append_left _ hmem
    refine ⟨hmm, ?_⟩
    intro c hc hci
    rw [addKeywordHit_append_eq acc h hany] at hc
    rcases List.mem_append.mp hc with hm | hm
    · exact hsem c hm hci
    · exfalso
      simp only [List.mem_singleton] at hm
      have hhid : h.id = i := by rw [hm] at hci; exact hci
      have hcontra := (any_id_eq_mem acc h.id).mpr (by rw [hhid]; exact hmem)
      rw [hany] at hcontra
      simp at hcontra

theorem addKeywordHit_bothSome (acc : List Candidate) (h : RawHit) (i : String)
    (hmem : i ∈ candIds acc)
    (hboth : ∀ c ∈ acc, c.id = i →
      c.semScore.isSome = true ∧ c.kwScore.isSome = true) :
    i ∈ candIds (addKeywordHit acc h)
      ∧ ∀ c ∈ addKeywordHit acc h, c.id = i →
          c.semScore.isSome = true ∧ c.kwScore.isSome = true := by
  cases hany : acc.any (fun c => c.id == h.id) with
  | true =>
    refine ⟨by rw [candIds_addKeywordHit_update acc h hany]; exact hmem, ?_⟩
    intro c hc hci
    obtain ⟨c0, hc0, hid, hsemEq, hkwupd, hkeep⟩ :=
      addKeywordHit_update_mem acc h hany c hc
    have hc0i : c0.id = i := by rw [hid, hci]
    obtain ⟨hs0, hk0⟩ := hboth c0 hc0 hc0i
    by_cases hcid : c0.id = h.id
    · exact ⟨by rw [hsemEq]; exact hs0, by rw [hkwupd hcid]; rfl⟩
    · rw [hkeep hcid]
      exact ⟨hs0, hk0⟩
  | false =>
    have hmm : i ∈ candIds (addKeywordHit acc h) := by
      rw [candIds_addKeywordHit_append acc h hany]
      exact List.mem_append_left _ hmem
    refine ⟨hmm, ?_⟩
    intro c hc hci
    rw [addKeywordHit_append_eq acc h hany] at hc
    rcases List.mem_append.mp hc with hm | hm
    · exact hboth c hm hci
    · exfalso
      simp only [List.mem_singleton] at hm
      have hhid : h.id = i := by rw [hm] at hci; exact hci
      have hcontra := (any_id_eq_mem acc h.id).mpr (by rw [hhid]; exact hmem)
      rw [hany] at hcontra
      simp at hcontra

theorem addKeywordHit_establish (acc : List Candidate) (h : RawHit)
    (hmem : h.id ∈ candIds acc)
    (hsem : ∀ c ∈ acc, c.id = h.id → c.semScore.isSome = true) :
    h.id ∈ candIds (addKeywordHit acc h)
      ∧ ∀ c ∈ addKeywordHit acc h, c.id = h.id →
          c.semScore.isSome = true ∧ c.kwScore.isSome = true := by
  have hany : acc.any (fun c => c.id == h.id) = true :=
    (any_id_eq_mem acc h.id).mpr hmem
  refine ⟨by rw [candIds_addKeywordHit_update acc h hany]; exact hmem, ?_⟩
  intro c hc hci
  obtain ⟨c0, hc0, hid, hsemEq, hkwupd, _⟩ := addKeywordHit_update_mem acc h hany c hc
  have hc0h : c0.id = h.id := by rw [hid, hci]
  refine ⟨by rw [hsemEq]; exact hsem c0 hc0 hc0h, ?_⟩
  rw [hkwupd hc0h]
  rfl

theorem foldl_semSome (kw : List RawHit) (acc : List Candidate) (i : String)
    (hmem : i ∈ candIds acc)
    (hsem : ∀ c ∈ acc, c.id = i → c.semScore.isSome = true) :
    i ∈ candIds (kw.foldl addKeywordHit acc)
      ∧ ∀ c ∈ kw.foldl addKeywordHit acc, c.id = i → c.semScore.isSome = true := by
  induction kw generalizing acc with
  | nil => exact ⟨hmem, hsem⟩
  | cons h rest ih =>
    obtain ⟨hm2, hs2⟩ := addKeywordHit_semSome acc h i hmem hsem
    simpa using ih (addKeywordHit acc h) hm2 hs2

theorem foldl_bothSome (kw : List RawHit) (acc : List Candidate) (i : String)
    (hmem : i ∈ candIds acc)
    (hboth : ∀ c ∈ acc, c.id = i →
      c.semScore.isSome = true ∧ c.kwScore.isSome = true) :
    i ∈ candIds (kw.foldl addKeywordHit acc)
      ∧ ∀ c ∈ kw.foldl addKeywordHit acc, c.id = i →
          c.semScore.isSome = true ∧ c.kwScore.isSome = true := by
  induction kw generalizing acc with
  | nil => exact ⟨hmem, hboth⟩
  | cons h rest ih =>
    obtain ⟨hm2, hs2⟩ := addKeywordHit_bothSome acc h i hmem hboth
    simpa using ih (addKeywordHit acc h) hm2 hs2

theorem merge_bothSome (sem kw : List RawHit) (i : String)
    (hsemMem : i ∈ hitIds sem) (hkwMem : i ∈ hitIds kw) :
    i ∈ candIds (mergeCandidates sem kw)
      ∧ ∀ c ∈ mergeCandidates sem kw, c.id = i →
          c.semScore.isSome = true ∧ c.kwScore.isSome = true := by
  obtain ⟨hhit, hhitmem, hhid⟩ := List.mem_map.mp hkwMem
  obtain ⟨pre, post, hsplit⟩ := List.append_of_mem hhitmem
  have hmem0 : i ∈ candIds (sem.map semCandidate) := by
    rw [candIds_semMap]
    exact hsemMem
  have hsem0 : ∀ c ∈ sem.map semCandidate, c.id = i → c.semScore.isSome = true := by
    intro c hc _
    obtain ⟨h0, _, he⟩ := List.mem_map.mp hc
    rw [← he]
    rfl
  obtain ⟨hm1, hs1⟩ := foldl_semSome pre (sem.map semCandidate) i hmem0 hsem0
  subst hhid
  obtain ⟨hm2, hs2⟩ :=
    addKeywordHit_establish (pre.foldl addKeywordHit (sem.map semCandidate)) hhit hm1 hs1
  have hres := foldl_bothSome post
    (addKeywordHit (pre.foldl addKeywordHit (sem.map semCandidate)) hhit) hhit.id hm2 hs2
  rw [mergeCandidates, hsplit]
  simpa [List.foldl_append] using hres

theorem filter_id_count_one (l : List Candidate) (i : String)
    (hnd : (candIds l).Nodup) (hmem : i ∈ candIds l) :
    (l.filter (fun c => c.id == i)).length = 1 := by
  induction l with
  | nil => simp [candIds] at hmem
  | cons c rest ih =>
    have hnd2 := hnd
    rw [candIds, List.map_cons, List.nodup_cons] at hnd2
    obtain ⟨hni, hndrest⟩ := hnd2
    by_cases hci : c.id = i
    · have hrest : rest.filter (fun c2 => c2.id == i) = [] := by
        rw [List.filter_eq_nil_iff]
        intro c2 hc2
        simp only [beq_iff_eq]
        intro heq
        apply hni
        rw [hci, ← heq]
        exact List.mem_map.mpr ⟨c2, hc2, rfl⟩
      rw [List.filter_cons]
      simp [hci, hrest]
    · rw [List.filter_cons]
      simp only [beq_iff_eq, hci, if_false]
      apply ih hndrest
      have hmem2 : i ∈ c.id :: candIds rest := by
        rw [candIds, List.map_cons] at hmem
        exact hmem
      rcases List.mem_cons.mp hmem2 with heq | hm
      · exact absurd heq.symm hci
      · exact hm

/-- C5: when the Hybrid Retriever merges the semantic and keyword
candidate sets, every chunk identity present in both sets yields exactly
one entry in the merged collection, carrying both source scores; and the
merged count equals semantic count plus keyword count minus overlap (so
15 semantic + 18 keyword with 8 overlapping merge to 25). -/
theorem c5_merge_dedup (sem kw : List RawHit)
    (hsem : (hitIds sem).Nodup) (hkw : (hitIds kw).Nodup) :
    ((mergeCandidates sem kw).length
        + (kw.filter (fun h => decide (h.id ∈ hitIds sem))).length
      = sem.length + kw.length) ∧
    ∀ i, i ∈ hitIds sem → i ∈ hitIds kw →
      ((mergeCandidates sem kw).filter (fun c => c.id == i)).length = 1 ∧
      ∀ c ∈ mergeCandidates sem kw, c.id = i →
        c.semScore.isSome = true ∧ c.kwScore.isSome = true := by
  constructor
  · have hlen := foldl_addKeywordHit_length kw (sem.map semCandidate) hkw
    have hpred : ∀ h2 : RawHit,
        (sem.map semCandidate).any (fun c => c.id == h2.id)
          = decide (h2.id ∈ hitIds sem) := by
      intro h2
      cases hd : decide (h2.id ∈ hitIds sem) with
      | true =>
        rw [any_id_eq_mem, candIds_semMap]
        exact of_decide_eq_true hd
      | false =>
        cases hb : (sem.map semCandidate).any (fun c => c.id == h2.id) with
        | true =>
          exfalso
          have hmem := (any_id_eq_mem _ h2.id).mp hb
          rw [candIds_semMap] at hmem
          rw [decide_eq_true hmem] at hd
          simp at hd
        | false => rfl
    have hfc : kw.filter (fun h2 => !((sem.map semCandidate).any (fun c => c.id == h2.id)))
        = kw.filter (fun h2 => !(decide (h2.id ∈ hitIds sem))) := by
      apply List.filter_congr
      intro h2 _
      rw [hpred h2]
    have hsplit := length_filter_split kw (fun h2 => decide (h2.id ∈ hitIds sem))
    rw [mergeCandidates, hlen, hfc, List.length_map]
    omega
  · intro i hi1 hi2
    obtain ⟨hmem, hboth⟩ := merge_bothSome sem kw i hi1 hi2
    have hnd : (candIds (mergeCandidates sem kw)).Nodup := by
      apply candIds_nodup_foldl
      rw [candIds_semMap]
      exact hsem
    exact ⟨filter_id_count_one _ i hnd hmem, hboth⟩

/-- C5 witness: the merge example of the specification — 15 semantic hits,
18 keyword hits, 8 overlapping identities — merges to 25 deduplicated
candidates, with exactly one entry for the overlapping identity `id7`. -/
theorem c5_witness :
    (hitIds semHitsExample).Nodup ∧ (hitIds kwHitsExample).Nodup ∧
      ((mergeCandidates semHitsExample kwHitsExample).length
          + (kwHitsExample.filter
              (fun h => decide (h.id ∈ hitIds semHitsExample))).length
        = semHitsExample.length + kwHitsExample.length) ∧
      (mergeCandidates semHitsExample kwHitsExample).length = 25 ∧
      (kwHitsExample.filter
          (fun h => decide (h.id ∈ hitIds semHitsExample))).length = 8 ∧
      ((mergeCandidates semHitsExample kwHitsExample).filter
          (fun c => c.id == "id7")).length = 1 :=
  ⟨by decide, by decide,
   (c5_merge_dedup semHitsExample kwHitsExample (by decide) (by decide)).1,
   by decide, by decide,
   ((c5_merge_dedup semHitsExample kwHitsExample (by decide) (by decide)).2
      "id7" (by decide) (by decide)).1⟩

/-- C8: when reranking is disabled or the reranking collaborator errors
(embedded as `rerankScores = none`), the rerank step keeps every merged
candidate — identical identity list and count, no candidate dropped — and
each candidate's final score falls back to the semantic score when present
and otherwise the keyword score. -/
theorem c8_rerank_fallback (sem kw : List RawHit) :
    candIds (applyRerank none (mergeCandidates sem kw))
        = candIds (mergeCandidates sem kw) ∧
    (applyRerank none (mergeCandidates sem kw)).length
        = (mergeCandidates sem kw).length ∧
    ∀ c ∈ applyRerank none (mergeCandidates sem kw),
      c.finalScore = orElseOpt c.semScore c.kwScore ∧
      (∀ x, c.semScore = some x → c.finalScore = some x) ∧
      (c.semScore = none → c.finalScore = c.kwScore) := by
  refine ⟨?_, ?_, ?_⟩
  · simp [applyRerank, candIds, List.map_map]
  · simp [applyRerank]
  · intro c hc
    simp only [applyRerank, List.mem_map] at hc
    obtain ⟨c0, _, he⟩ := hc
    refine ⟨by rw [← he], ?_, ?_⟩
    · intro x hx
      rw [← he] at hx ⊢
      simp only at hx ⊢
      rw [hx]
      rfl
    · intro hnone
      rw [← he] at hnone ⊢
      simp only at hnone ⊢
      rw [hnone]
      rfl

/-- C8 witness: a keyword-only candidate survives a failed rerank with its
keyword score as final score. -/
theorem c8_witness :
    ((⟨"b", "t", none, some 2, some 2⟩ : Candidate)
        ∈ applyRerank none (mergeCandidates [⟨"a", "t", 3⟩] [⟨"b", "t", 2⟩])) ∧
      (⟨"b", "t", none, some 2, some 2⟩ : Candidate).finalScore
        = orElseOpt none (some 2) :=
  ⟨by decide,
   ((c8_rerank_fallback [⟨"a", "t", 3⟩] [⟨"b", "t", 2⟩]).2.2
      ⟨"b", "t", none, some 2, some 2⟩ (by decide)).1⟩

end TpoRag
